import Mathlib

/-!
Verification of the stateful splitting transformer of
`src/stateful_iterators/string_iterator.ts`.

Strings are modelled as lists of characters.  The JavaScript
`String.prototype.split` operation is modelled by `jsSplit`, the pump
`SplitIteratorImpl.statefulPump` by `statefulPump`, and a full run of the
transformer over a finite upstream fragment sequence by `pumpAll` / `runSplit`.
-/

abbrev Str := List Char

/-- The nine characters of the text "undefined".  In JavaScript, reading
index 0 of an empty array yields `undefined`, and string concatenation
coerces it to this text; this happens in the source at line 116
(`lines[0] = state.carryover + lines[0]`) when `split` returned an empty
array (which `String.split` does exactly for an empty string and an empty
separator). -/
def undefinedText : Str := ['u', 'n', 'd', 'e', 'f', 'i', 'n', 'e', 'd']

/-- Greedy leftmost split on a non-empty separator, with fuel (the fuel is
always instantiated with the length of the string, which suffices; a
fuel-based formulation keeps the function kernel-computable).  Matches the
behaviour of JavaScript `String.prototype.split` for a non-empty separator:
scan left to right, on a separator match emit the accumulated part and skip
the separator, non-overlapping. -/
def splitGo (sep : Str) : Nat → Str → List Str
  | _, [] => [[]]
  | 0, _ :: _ => [[]]
  | fuel + 1, c :: rest =>
    if sep.isPrefixOf (c :: rest) then
      [] :: splitGo sep fuel (rest.drop (sep.length - 1))
    else
      match splitGo sep fuel rest with
      | [] => [[c]]
      | t :: ts => (c :: t) :: ts

/-- Split on a non-empty separator (fuel instantiated). -/
def splitNE (sep s : Str) : List Str := splitGo sep s.length s

/-- JavaScript `value.split(separator)`: an empty separator splits into the
individual characters (so the empty string yields an empty array); a
non-empty separator performs the greedy leftmost split. -/
def jsSplit (separator s : Str) : List Str :=
  if separator = [] then s.map (fun c => [c])
  else splitNE separator s

/-- JavaScript `Array.prototype.join(separator)`. -/
def joinSep (sep : Str) : List Str → Str
  | [] => []
  | a :: t => a ++ (t.map (fun x => sep ++ x)).flatten

/-- Concatenation of all fragments, in production order. -/
def concatAll (l : List Str) : Str := l.foldr (fun a b => a ++ b) []

/-- Number of positions of `s` at which `sep` occurs (occurrences may
overlap).  This is the plain notion of "occurrences of the delimiter". -/
def countOcc (sep : Str) : Str → Nat
  | [] => 0
  | c :: rest => (if sep.isPrefixOf (c :: rest) then 1 else 0) + countOcc sep rest

/-- Last element of a list with a default, modelling `lines[lines.length-1]`. -/
def lastD {α : Type} (d : α) : List α → α
  | [] => d
  | [a] => a
  | _ :: b :: t => lastD d (b :: t)

/-- Result of one `statefulPump` call: the tokens pushed onto the output
queue (in push order), the `pumpDidWork` flag, and the new carryover state. -/
structure StatefulPumpResult where
  pushed : List Str
  pumpDidWork : Bool
  carryover : Str
deriving DecidableEq, Repr

/-- `SplitIteratorImpl.initialState`: the carryover starts empty. -/
def initialState : Str := []

/-- `SplitIteratorImpl.statefulPump`.  The upstream pull result is `none`
when the upstream reported done, `some value` when it yielded a fragment.
Mirrors the source: on upstream done, an empty carryover means no work;
otherwise the carryover is pushed as one final token and reset.  On a
fragment, `lines = value.split(separator)`, then
`lines[0] = carryover + lines[0]` (reading index 0 of an empty array gives
`undefined`, coerced to the text "undefined" by string concatenation), all
lines but the last are pushed, and the last line becomes the carryover. -/
def statefulPump (separator carryover : Str) (chunkResult : Option Str) :
    StatefulPumpResult :=
  match chunkResult with
  | none =>
    if carryover = [] then ⟨[], false, carryover⟩
    else ⟨[carryover], true, []⟩
  | some value =>
    let lines := jsSplit separator value
    let lines : List Str :=
      match lines with
      | [] => [carryover ++ undefinedText]
      | l0 :: rest => (carryover ++ l0) :: rest
    ⟨lines.dropLast, true, lastD [] lines⟩

/-- Run the pump over every upstream fragment in order, starting from a
given carryover; returns all pushed tokens in order and the final
carryover. -/
def pumpAll (separator carry : Str) : List Str → List Str × Str
  | [] => ([], carry)
  | f :: fs =>
    let r := statefulPump separator carry (some f)
    let rest := pumpAll separator r.carryover fs
    (r.pushed ++ rest.1, rest.2)

/-- All tokens emitted by the transformer over a finite upstream fragment
sequence: the tokens pushed while consuming the fragments, followed by
whatever the final upstream-done pump pushes (the final carryover, when it
is non-empty). -/
def runSplit (separator : Str) (frags : List Str) : List Str :=
  let r := pumpAll separator initialState frags
  r.1 ++ (statefulPump separator r.2 none).pushed

/-- State of the queue-draining iterator: pending output queue, carryover,
and remaining upstream fragments (`[]` means the upstream reported done,
which is terminal for the upstream by its contract). -/
structure NextState where
  queue : List Str
  carryover : Str
  upstream : List Str
deriving DecidableEq, Repr

/-- Modelled from the spec: the `next()` operation of the queue-draining
iterator (`StatefulOneToManyIterator`, imported by the source file but not
part of this repository snapshot), per spec section 4.2: if the output queue
is non-empty, pop and return its front; otherwise pump (consuming at most
one upstream fragment) and retry; if the pump with upstream done reports no
work done, return done. -/
def statefulNext (separator : Str) : List Str → Str → List Str → Option Str × NextState
  | q :: qs, c, up => (some q, ⟨qs, c, up⟩)
  | [], c, [] =>
    if c = [] then (none, ⟨[], c, []⟩) else (some c, ⟨[], [], []⟩)
  | [], c, f :: fs =>
    let r := statefulPump separator c (some f)
    statefulNext separator r.pushed r.carryover fs

/-- One pump step as a relation between the pre-state (carryover and the
upstream pull result) and the pump result, mirroring the three branches of
the source. -/
inductive PumpR (separator : Str) : Str → Option Str → StatefulPumpResult → Prop
  | upstreamDoneEmpty :
      PumpR separator [] none ⟨[], false, []⟩
  | upstreamDoneFlush (c : Str) (h : c ≠ []) :
      PumpR separator c none ⟨[c], true, []⟩
  | chunk (c f : Str) :
      PumpR separator c (some f) (statefulPump separator c (some f))

/-- A complete run of the transformer as a relation: starting from a
carryover, consume the given fragments one pump at a time, then perform the
final upstream-done pump; the trace records every pump result in order. -/
inductive RunR (separator : Str) : Str → List Str → List StatefulPumpResult → Prop
  | done (c : Str) (r : StatefulPumpResult) :
      PumpR separator c none r → RunR separator c [] [r]
  | step (c f : Str) (fs : List Str) (r : StatefulPumpResult)
      (rs : List StatefulPumpResult) :
      PumpR separator c (some f) r → RunR separator r.carryover fs rs →
      RunR separator c (f :: fs) (r :: rs)

/-! ## Basic facts about the split -/

theorem splitGo_nil (sep : Str) (n : Nat) : splitGo sep n [] = [[]] := by
  cases n <;> rfl

theorem splitGo_fuel (sep : Str) :
    ∀ n m s, s.length ≤ n → s.length ≤ m → splitGo sep n s = splitGo sep m s := by
  intro n
  induction n with
  | zero =>
    intro m s hn _
    have hs : s = [] := List.length_eq_zero.mp (Nat.le_zero.mp hn)
    subst hs
    simp [splitGo_nil]
  | succ n ih =>
    intro m s hn hm
    match s, m with
    | [], m => simp [splitGo_nil]
    | c :: rest, 0 => simp at hm
    | c :: rest, m + 1 =>
      simp only [List.length_cons, Nat.add_le_add_iff_right] at hn hm
      simp only [splitGo]
      rw [ih m (rest.drop (sep.length - 1))
            (le_trans (by simp) hn) (le_trans (by simp) hm),
          ih m rest hn hm]

theorem splitNE_nil (sep : Str) : splitNE sep [] = [[]] := rfl

theorem splitNE_cons (sep : Str) (c : Char) (rest : Str) :
    splitNE sep (c :: rest) =
      if sep.isPrefixOf (c :: rest) then
        [] :: splitNE sep (rest.drop (sep.length - 1))
      else
        match splitNE sep rest with
        | [] => [[c]]
        | t :: ts => (c :: t) :: ts := by
  show splitGo sep (c :: rest).length (c :: rest) = _
  simp only [List.length_cons, splitGo]
  rw [splitGo_fuel sep rest.length (rest.drop (sep.length - 1)).length
        (rest.drop (sep.length - 1)) (by simp) (le_refl _)]
  rfl

theorem splitNE_ne_nil (sep s : Str) : splitNE sep s ≠ [] := by
  cases s with
  | nil => simp [splitNE_nil]
  | cons c rest =>
    rw [splitNE_cons]
    split
    · simp
    · cases h : splitNE sep rest <;> simp

theorem isPrefixOfAppend (l t : Str) : l.isPrefixOf (l ++ t) = true := by
  induction l with
  | nil => simp [List.isPrefixOf]
  | cons a as ih => simp [List.isPrefixOf, ih]

theorem isPrefixOfDrop :
    ∀ l₁ l₂ : Str, l₁.isPrefixOf l₂ = true → l₁ ++ l₂.drop l₁.length = l₂ := by
  intro l₁
  induction l₁ with
  | nil => intro l₂ _; simp
  | cons a as ih =>
    intro l₂ h
    match l₂ with
    | [] => simp [List.isPrefixOf] at h
    | b :: bs =>
      simp only [List.isPrefixOf, Bool.and_eq_true, beq_iff_eq] at h
      obtain ⟨rfl, h2⟩ := h
      simpa using ih bs h2

theorem splitNE_singleton_cons (d c : Char) (rest : Str) :
    splitNE [d] (c :: rest) =
      if c = d then [] :: splitNE [d] rest
      else (c :: (splitNE [d] rest).headD []) :: (splitNE [d] rest).tail := by
  obtain ⟨t, ts, hts⟩ : ∃ t ts, splitNE [d] rest = t :: ts := by
    cases hh : splitNE [d] rest with
    | nil => exact absurd hh (splitNE_ne_nil _ _)
    | cons t ts => exact ⟨t, ts, rfl⟩
  rw [splitNE_cons]
  by_cases h : c = d
  · subst h
    simp [List.isPrefixOf]
  · have hd : (d == c) = false := by
      simp [beq_iff_eq]
      exact fun hh => h hh.symm
    simp [List.isPrefixOf, hd, hts, h]

theorem joinSep_single (sep x : Str) : joinSep sep [x] = x := by
  simp [joinSep]

theorem joinSep_merge (sep a b : Str) (t : List Str) :
    joinSep sep ((a ++ b) :: t) = a ++ joinSep sep (b :: t) := by
  simp [joinSep, List.append_assoc]

theorem joinSep_cons_cons (sep x y : Str) (t : List Str) :
    joinSep sep (x :: y :: t) = x ++ sep ++ joinSep sep (y :: t) := by
  simp [joinSep, List.append_assoc]

theorem joinSepSplitAux (sep : Str) (hs : sep ≠ []) :
    ∀ n s, s.length ≤ n → joinSep sep (splitNE sep s) = s := by
  have hl : 0 < sep.length := List.length_pos.mpr hs
  intro n
  induction n with
  | zero =>
    intro s h
    have hnil : s = [] := List.length_eq_zero.mp (Nat.le_zero.mp h)
    subst hnil
    simp [splitNE_nil, joinSep]
  | succ n ih =>
    intro s h
    match s with
    | [] => simp [splitNE_nil, joinSep]
    | c :: rest =>
      simp only [List.length_cons, Nat.add_le_add_iff_right] at h
      rw [splitNE_cons]
      by_cases hp : sep.isPrefixOf (c :: rest)
      · rw [if_pos hp]
        obtain ⟨l, ls, hls⟩ : ∃ l ls,
            splitNE sep (rest.drop (sep.length - 1)) = l :: ls := by
          cases hh : splitNE sep (rest.drop (sep.length - 1)) with
          | nil => exact absurd hh (splitNE_ne_nil _ _)
          | cons l ls => exact ⟨l, ls, rfl⟩
        have ht : joinSep sep (l :: ls) = rest.drop (sep.length - 1) := by
          rw [← hls]
          exact ih (rest.drop (sep.length - 1)) (le_trans (by simp) h)
        have hdrop := isPrefixOfDrop sep (c :: rest) hp
        obtain ⟨k, hk⟩ : ∃ k, sep.length = k + 1 := ⟨sep.length - 1, by omega⟩
        rw [hk] at hdrop
        simp only [List.drop_succ_cons] at hdrop
        rw [hls, joinSep_cons_cons]
        calc ([] : Str) ++ sep ++ joinSep sep (l :: ls)
            = sep ++ joinSep sep (l :: ls) := by simp
          _ = sep ++ rest.drop (sep.length - 1) := by rw [ht]
          _ = c :: rest := by rw [hk]; simpa using hdrop
      · rw [if_neg hp]
        obtain ⟨t, ts, hts⟩ : ∃ t ts, splitNE sep rest = t :: ts := by
          cases hh : splitNE sep rest with
          | nil => exact absurd hh (splitNE_ne_nil _ _)
          | cons t ts => exact ⟨t, ts, rfl⟩
        rw [hts]
        have ihr : joinSep sep (t :: ts) = rest := by
          rw [← hts]
          exact ih rest h
        calc joinSep sep ((c :: t) :: ts)
            = joinSep sep (([c] ++ t) :: ts) := rfl
          _ = [c] ++ joinSep sep (t :: ts) := joinSep_merge sep [c] t ts
          _ = c :: rest := by rw [ihr]; rfl

theorem flattenMapSingle (s : Str) :
    (s.map (fun c => [c])).flatten = s := by
  induction s <;> simp [*]

theorem joinSepEmptySep (l : List Str) : joinSep [] l = l.flatten := by
  cases l with
  | nil => rfl
  | cons a t => simp [joinSep]

theorem joinSep_jsSplit (separator f : Str) :
    joinSep separator (jsSplit separator f) = f := by
  by_cases hsep : separator = []
  · subst hsep
    rw [joinSepEmptySep]
    simp [jsSplit, flattenMapSingle]
  · rw [jsSplit, if_neg hsep]
    exact joinSepSplitAux separator hsep f.length f (le_refl _)

/-! ## Helpers for last element and dropLast -/

theorem lastD_cons₂ {α : Type} (d a b : α) (t : List α) :
    lastD d (a :: b :: t) = lastD d (b :: t) := rfl

theorem dropLast_cons₂ {α : Type} (a b : α) (t : List α) :
    (a :: b :: t).dropLast = a :: (b :: t).dropLast := rfl

theorem lastD_append {α : Type} (d : α) :
    ∀ A B : List α, B ≠ [] → lastD d (A ++ B) = lastD d B := by
  intro A
  induction A with
  | nil => intro B _; rfl
  | cons a A' ih =>
    intro B hB
    have hne : A' ++ B ≠ [] := by
      intro h
      exact hB (List.append_eq_nil.mp h).2
    match hAB : A' ++ B with
    | [] => exact absurd hAB hne
    | b :: t =>
      calc lastD d ((a :: A') ++ B) = lastD d (a :: b :: t) := by rw [List.cons_append, hAB]
        _ = lastD d (b :: t) := rfl
        _ = lastD d B := by rw [← hAB]; exact ih B hB

theorem lastD_mem {α : Type} (d : α) :
    ∀ l : List α, l ≠ [] → lastD d l ∈ l := by
  intro l
  induction l with
  | nil => intro h; exact absurd rfl h
  | cons a t ih =>
    intro _
    match t with
    | [] => simp [lastD]
    | b :: t' =>
      rw [lastD_cons₂]
      exact List.mem_cons_of_mem a (ih (by simp))

theorem dropLast_append {α : Type} :
    ∀ A B : List α, B ≠ [] → (A ++ B).dropLast = A ++ B.dropLast := by
  intro A
  induction A with
  | nil => intro B _; simp
  | cons a A' ih =>
    intro B hB
    have hne : A' ++ B ≠ [] := by
      intro h
      exact hB (List.append_eq_nil.mp h).2
    match hAB : A' ++ B with
    | [] => exact absurd hAB hne
    | b :: t =>
      calc ((a :: A') ++ B).dropLast = (a :: b :: t).dropLast := by rw [List.cons_append, hAB]
        _ = a :: (b :: t).dropLast := rfl
        _ = a :: (A' ++ B).dropLast := by rw [← hAB]
        _ = (a :: A') ++ B.dropLast := by rw [ih B hB]; rfl

theorem dropLast_lastD {α : Type} (d : α) :
    ∀ l : List α, l ≠ [] → l.dropLast ++ [lastD d l] = l := by
  intro l
  induction l with
  | nil => intro h; exact absurd rfl h
  | cons a t ih =>
    intro _
    match t with
    | [] => rfl
    | b :: t' =>
      rw [lastD_cons₂, dropLast_cons₂, List.cons_append, ih (by simp)]

/-! ## Single-character separators -/

theorem splitNE_singleton_mem (d : Char) :
    ∀ s p, p ∈ splitNE [d] s → d ∉ p := by
  intro s
  induction s with
  | nil =>
    intro p hp
    rw [splitNE_nil] at hp
    simp at hp
    simp [hp]
  | cons c rest ih =>
    intro p hp
    obtain ⟨t, ts, hts⟩ : ∃ t ts, splitNE [d] rest = t :: ts := by
      cases hh : splitNE [d] rest with
      | nil => exact absurd hh (splitNE_ne_nil _ _)
      | cons t ts => exact ⟨t, ts, rfl⟩
    rw [splitNE_singleton_cons] at hp
    by_cases h : c = d
    · rw [if_pos h] at hp
      rcases List.mem_cons.mp hp with h1 | h2
      · simp [h1]
      · exact ih p h2
    · rw [if_neg h, hts] at hp
      rcases List.mem_cons.mp hp with h1 | h2
      · subst h1
        intro hmem
        rcases List.mem_cons.mp hmem with h3 | h4
        · exact h h3.symm
        · exact ih t (by rw [hts]; exact List.mem_cons_self t ts) h4
      · exact ih p (by rw [hts]; exact List.mem_cons_of_mem t h2)

theorem splitNE_singleton_carry (d : Char) :
    ∀ c f : Str, d ∉ c →
      splitNE [d] (c ++ f) =
        (c ++ (splitNE [d] f).headD []) :: (splitNE [d] f).tail := by
  intro c
  induction c with
  | nil =>
    intro f _
    obtain ⟨t, ts, hts⟩ : ∃ t ts, splitNE [d] f = t :: ts := by
      cases hh : splitNE [d] f with
      | nil => exact absurd hh (splitNE_ne_nil _ _)
      | cons t ts => exact ⟨t, ts, rfl⟩
    simp [hts]
  | cons a c' ih =>
    intro f hd
    have ha : ¬ a = d := by
      intro h
      exact hd (by simp [h])
    have hc' : d ∉ c' := fun h => hd (List.mem_cons_of_mem _ h)
    rw [List.cons_append, splitNE_singleton_cons, if_neg ha, ih f hc']
    simp

theorem splitNE_singleton_noDelim (d : Char) (c : Str) (h : d ∉ c) :
    splitNE [d] c = [c] := by
  have := splitNE_singleton_carry d c [] h
  simpa [splitNE_nil] using this

theorem splitNE_singleton_append (d : Char) :
    ∀ x y : Str, splitNE [d] (x ++ y) =
      (splitNE [d] x).dropLast ++ splitNE [d] (lastD [] (splitNE [d] x) ++ y) := by
  intro x
  induction x with
  | nil =>
    intro y
    simp [splitNE_nil, lastD]
  | cons c rest ih =>
    intro y
    obtain ⟨r, rs, hR⟩ : ∃ r rs, splitNE [d] rest = r :: rs := by
      cases hh : splitNE [d] rest with
      | nil => exact absurd hh (splitNE_ne_nil _ _)
      | cons r rs => exact ⟨r, rs, rfl⟩
    by_cases h : c = d
    · rw [List.cons_append, splitNE_singleton_cons, if_pos h, ih y,
          splitNE_singleton_cons, if_pos h, hR]
      match rs with
      | [] => simp [lastD]
      | r2 :: rs' =>
        simp [lastD_cons₂, dropLast_cons₂]
    · rw [List.cons_append, splitNE_singleton_cons, if_neg h, ih y, hR,
          splitNE_singleton_cons d c rest, if_neg h, hR]
      match rs with
      | [] =>
        simp only [List.headD_cons, List.tail_cons, List.dropLast_single,
          List.nil_append, lastD]
        rw [List.cons_append, splitNE_singleton_cons, if_neg h]
      | r2 :: rs' =>
        simp only [List.headD_cons, List.tail_cons, lastD_cons₂, dropLast_cons₂]
        rw [List.cons_append]
        simp

/-! ## Pump-level lemmas -/

theorem concatAll_nil : concatAll [] = [] := rfl

theorem concatAll_cons (f : Str) (fs : List Str) :
    concatAll (f :: fs) = f ++ concatAll fs := rfl

theorem jsSplit_ne_nil (separator f : Str) (h : separator ≠ [] ∨ f ≠ []) :
    jsSplit separator f ≠ [] := by
  by_cases hsep : separator = []
  · have hf : f ≠ [] := by
      rcases h with h1 | h2
      · exact absurd hsep h1
      · exact h2
    match f with
    | [] => exact absurd rfl hf
    | c :: rest => simp [jsSplit, hsep]
  · rw [jsSplit, if_neg hsep]
    exact splitNE_ne_nil separator f

theorem statefulPump_chunk (separator c f l0 : Str) (ls : List Str)
    (h : jsSplit separator f = l0 :: ls) :
    statefulPump separator c (some f) =
      ⟨((c ++ l0) :: ls).dropLast, true, lastD [] ((c ++ l0) :: ls)⟩ := by
  simp [statefulPump, h]

theorem joinSep_append_ne (sep : Str) (A B : List Str)
    (hA : A ≠ []) (hB : B ≠ []) :
    joinSep sep (A ++ B) = joinSep sep A ++ sep ++ joinSep sep B := by
  match A, B with
  | a :: as, b :: bs =>
    simp [joinSep, List.map_append, List.flatten_append, List.append_assoc]

theorem pump_inv (separator c f : Str) (h : separator ≠ [] ∨ f ≠ []) :
    joinSep separator
        ((statefulPump separator c (some f)).pushed ++
          [(statefulPump separator c (some f)).carryover]) = c ++ f := by
  obtain ⟨l0, ls, hls⟩ : ∃ l0 ls, jsSplit separator f = l0 :: ls := by
    cases hh : jsSplit separator f with
    | nil => exact absurd hh (jsSplit_ne_nil separator f h)
    | cons l0 ls => exact ⟨l0, ls, rfl⟩
  rw [statefulPump_chunk separator c f l0 ls hls]
  simp only
  rw [dropLast_lastD [] ((c ++ l0) :: ls) (by simp), joinSep_merge]
  rw [← hls, joinSep_jsSplit]

theorem pumpAll_inv (separator : Str) :
    ∀ frags c, (separator ≠ [] ∨ ∀ f ∈ frags, f ≠ []) →
      joinSep separator
          ((pumpAll separator c frags).1 ++ [(pumpAll separator c frags).2]) =
        c ++ concatAll frags := by
  intro frags
  induction frags with
  | nil =>
    intro c _
    simp [pumpAll, concatAll_nil, joinSep_single]
  | cons f fs ih =>
    intro c h
    have hf : separator ≠ [] ∨ f ≠ [] := by
      rcases h with h1 | h2
      · exact Or.inl h1
      · exact Or.inr (h2 f (List.mem_cons_self f fs))
    have hfs : separator ≠ [] ∨ ∀ g ∈ fs, g ≠ [] := by
      rcases h with h1 | h2
      · exact Or.inl h1
      · exact Or.inr (fun g hg => h2 g (List.mem_cons_of_mem f hg))
    simp only [pumpAll]
    have hpump := pump_inv separator c f hf
    have hih := ih (statefulPump separator c (some f)).carryover hfs
    by_cases hp : (statefulPump separator c (some f)).pushed = []
    · rw [hp] at hpump ⊢
      simp only [List.nil_append] at hpump ⊢
      rw [joinSep_single] at hpump
      rw [hih, hpump, concatAll_cons, List.append_assoc]
    · have hrest1 : (pumpAll separator (statefulPump separator c (some f)).carryover fs).1
          ++ [(pumpAll separator (statefulPump separator c (some f)).carryover fs).2] ≠ [] := by
        simp
      rw [List.append_assoc, joinSep_append_ne separator _ _ hp hrest1, hih]
      rw [joinSep_append_ne separator _ _ hp (by simp), joinSep_single] at hpump
      calc joinSep separator (statefulPump separator c (some f)).pushed ++ separator ++
              ((statefulPump separator c (some f)).carryover ++ concatAll fs)
          = (joinSep separator (statefulPump separator c (some f)).pushed ++ separator ++
              (statefulPump separator c (some f)).carryover) ++ concatAll fs := by
            simp [List.append_assoc]
        _ = (c ++ f) ++ concatAll fs := by rw [hpump]
        _ = c ++ concatAll (f :: fs) := by simp [concatAll_cons, List.append_assoc]

/-! ## Canonical form of a run for a single-character separator -/

theorem pumpAll_singleton (d : Char) :
    ∀ frags (c : Str), d ∉ c →
      pumpAll [d] c frags =
        ((splitNE [d] (c ++ concatAll frags)).dropLast,
          lastD [] (splitNE [d] (c ++ concatAll frags))) := by
  intro frags
  induction frags with
  | nil =>
    intro c hc
    rw [concatAll_nil, List.append_nil, splitNE_singleton_noDelim d c hc]
    rfl
  | cons f fs ih =>
    intro c hc
    have hd : ([d] : Str) ≠ [] := by simp
    obtain ⟨l0, ls, hls⟩ : ∃ l0 ls, jsSplit [d] f = l0 :: ls := by
      cases hh : jsSplit [d] f with
      | nil => exact absurd hh (jsSplit_ne_nil [d] f (Or.inl hd))
      | cons l0 ls => exact ⟨l0, ls, rfl⟩
    have hsne : splitNE [d] f = l0 :: ls := by
      rw [← hls, jsSplit, if_neg hd]
    have hlines : splitNE [d] (c ++ f) = (c ++ l0) :: ls := by
      rw [splitNE_singleton_carry d c f hc, hsne]
      rfl
    have hmem : lastD [] ((c ++ l0) :: ls) ∈ splitNE [d] (c ++ f) := by
      rw [hlines]
      exact lastD_mem [] _ (by simp)
    have hc' : d ∉ lastD [] ((c ++ l0) :: ls) :=
      splitNE_singleton_mem d (c ++ f) _ hmem
    have hih := ih (lastD [] ((c ++ l0) :: ls)) hc'
    have happ := splitNE_singleton_append d (c ++ f) (concatAll fs)
    rw [hlines] at happ
    have hS'ne := splitNE_ne_nil [d] (lastD [] ((c ++ l0) :: ls) ++ concatAll fs)
    simp only [pumpAll]
    rw [statefulPump_chunk [d] c f l0 ls hls]
    simp only
    rw [hih, concatAll_cons, ← List.append_assoc, happ,
        dropLast_append _ _ hS'ne, lastD_append [] _ _ hS'ne]

theorem runSplit_singleton (d : Char) (frags : List Str) :
    runSplit [d] frags =
      (splitNE [d] (concatAll frags)).dropLast ++
        (statefulPump [d] (lastD [] (splitNE [d] (concatAll frags))) none).pushed := by
  simp only [runSplit, initialState]
  rw [pumpAll_singleton d frags [] (by simp)]
  simp

/-! ## Token counting for a single-character separator -/

theorem splitNE_singleton_length (d : Char) :
    ∀ s, (splitNE [d] s).length = countOcc [d] s + 1 := by
  intro s
  induction s with
  | nil => simp [splitNE_nil, countOcc]
  | cons c rest ih =>
    obtain ⟨r, rs, hR⟩ : ∃ r rs, splitNE [d] rest = r :: rs := by
      cases hh : splitNE [d] rest with
      | nil => exact absurd hh (splitNE_ne_nil _ _)
      | cons r rs => exact ⟨r, rs, rfl⟩
    rw [splitNE_singleton_cons]
    by_cases h : c = d
    · subst h
      rw [if_pos rfl]
      simp only [countOcc, List.isPrefixOf, List.length_cons]
      simp [ih]
      omega
    · have hd : (d == c) = false := by
        simp [beq_iff_eq]
        exact fun hh => h hh.symm
      rw [if_neg h, hR]
      rw [hR] at ih
      simp only [countOcc, List.isPrefixOf, hd, List.length_cons] at ih ⊢
      simp at ih ⊢
      omega

theorem pushedCountChunk (d : Char) (c f : Str) :
    (statefulPump [d] c (some f)).pushed.length = countOcc [d] f := by
  have hd : ([d] : Str) ≠ [] := by simp
  obtain ⟨l0, ls, hls⟩ : ∃ l0 ls, jsSplit [d] f = l0 :: ls := by
    cases hh : jsSplit [d] f with
    | nil => exact absurd hh (jsSplit_ne_nil [d] f (Or.inl hd))
    | cons l0 ls => exact ⟨l0, ls, rfl⟩
  have hsne : splitNE [d] f = l0 :: ls := by
    rw [← hls, jsSplit, if_neg hd]
  have hlen := splitNE_singleton_length d f
  rw [hsne] at hlen
  simp only [List.length_cons] at hlen
  rw [statefulPump_chunk [d] c f l0 ls hls]
  simp only [List.length_dropLast, List.length_cons]
  omega

/-! ## The done state of the pull operation -/

theorem statefulNextDone (separator : Str) :
    ∀ up q c s', statefulNext separator q c up = (none, s') →
      s' = ⟨[], [], []⟩ := by
  intro up
  induction up with
  | nil =>
    intro q c s' h
    match q with
    | x :: xs => simp [statefulNext] at h
    | [] =>
      by_cases hc : c = []
      · subst hc
        simp [statefulNext] at h
        exact h.symm
      · simp [statefulNext, hc] at h
  | cons f fs ih =>
    intro q c s' h
    match q with
    | x :: xs => simp [statefulNext] at h
    | [] => exact ih _ _ _ h

/-! ## Determinism -/

theorem pumpR_det (separator c : Str) (k : Option Str) (r r' : StatefulPumpResult)
    (h1 : PumpR separator c k r) (h2 : PumpR separator c k r') : r = r' := by
  cases h1 <;> cases h2 <;> first | rfl | (exfalso; simp_all)

theorem pumpR_total (separator c : Str) (k : Option Str) :
    PumpR separator c k (statefulPump separator c k) := by
  match k with
  | some f => exact PumpR.chunk c f
  | none =>
    by_cases hc : c = []
    · subst hc
      have h : statefulPump separator [] none = ⟨[], false, []⟩ := by
        simp [statefulPump]
      rw [h]
      exact PumpR.upstreamDoneEmpty
    · have h : statefulPump separator c none = ⟨[c], true, []⟩ := by
        simp [statefulPump, hc]
      rw [h]
      exact PumpR.upstreamDoneFlush c hc

theorem runR_det (separator : Str) :
    ∀ frags c tr tr', RunR separator c frags tr → RunR separator c frags tr' →
      tr = tr' := by
  intro frags
  induction frags with
  | nil =>
    intro c tr tr' h1 h2
    cases h1 with
    | done c r hr =>
      cases h2 with
      | done c r' hr' => rw [pumpR_det separator c none r r' hr hr']
  | cons f fs ih =>
    intro c tr tr' h1 h2
    cases h1 with
    | step c f fs r rs hr hrun =>
      cases h2 with
      | step c f fs r' rs' hr' hrun' =>
        have hrr : r = r' := pumpR_det separator c (some f) r r' hr hr'
        subst hrr
        rw [ih r.carryover rs rs' hrun hrun']

/-! ## Boundary behaviour of the split -/

theorem jsSplitNilFrag (separator : Str) (h : separator ≠ []) :
    jsSplit separator [] = [[]] := by
  rw [jsSplit, if_neg h, splitNE_nil]

theorem splitNE_leading (separator x : Str) (h : separator ≠ []) :
    (splitNE separator (separator ++ x)).headD [] = [] := by
  match separator, h with
  | a :: sep', _ =>
    rw [List.cons_append, splitNE_cons, if_pos (by
      rw [← List.cons_append]
      exact isPrefixOfAppend (a :: sep') x)]
    rfl

theorem splitNE_self (separator : Str) (h : separator ≠ []) :
    splitNE separator separator = [[], []] := by
  match separator, h with
  | a :: sep', _ =>
    rw [splitNE_cons, if_pos (by
      have h2 := isPrefixOfAppend (a :: sep') []
      rw [List.append_nil] at h2
      exact h2)]
    have hdrop : sep'.drop ((a :: sep').length - 1) = [] := by
      simp
    rw [hdrop, splitNE_nil]

theorem splitNE_singleton_trailing (e : Char) (y : Str) :
    lastD [] (splitNE [e] (y ++ [e])) = [] := by
  have happ := splitNE_singleton_append e y [e]
  have hz : e ∉ lastD [] (splitNE [e] y) :=
    splitNE_singleton_mem e y _ (lastD_mem [] _ (splitNE_ne_nil _ _))
  have hzsplit : splitNE [e] (lastD [] (splitNE [e] y) ++ [e]) =
      [lastD [] (splitNE [e] y), []] := by
    rw [splitNE_singleton_carry e _ [e] hz]
    have hone : splitNE [e] [e] = [[], []] := splitNE_self [e] (by simp)
    rw [hone]
    simp
  rw [happ, hzsplit, lastD_append [] _ _ (by simp)]
  rfl

theorem memDropLast {α : Type} (l : List α) (t : α) (h : t ∈ l.dropLast) :
    t ∈ l := by
  match l with
  | [] => simp at h
  | a :: rest =>
    have := dropLast_lastD a (a :: rest) (by simp)
    rw [← this]
    exact List.mem_append_left _ h

/-! ## The claims -/

/-- C2 (amended to single-character delimiters): for every two finite
fragment sequences with the same concatenation and every delimiter
consisting of exactly one character, the splitting transformer emits
identical token sequences for both; the output depends only on the
concatenated logical stream, never on where the upstream chunk boundaries
fall. -/
theorem boundaryIndependenceAmended (d : Char) (frags1 frags2 : List Str)
    (h : concatAll frags1 = concatAll frags2) :
    runSplit [d] frags1 = runSplit [d] frags2 := by
  rw [runSplit_singleton, runSplit_singleton, h]

/-- C2 counterexample: the claim fails for the empty delimiter and for a
two-character delimiter.  The streams "ab" chunked as one fragment and as
two fragments have the same concatenation, yet the emitted token sequences
differ in both cases. -/
theorem boundaryIndependenceCounterexample :
    (concatAll [['a', 'b']] = concatAll [['a'], ['b']] ∧
      runSplit [] [['a', 'b']] ≠ runSplit [] [['a'], ['b']]) ∧
    runSplit ['a', 'b'] [['a', 'b']] ≠ runSplit ['a', 'b'] [['a'], ['b']] := by
  decide

/-- C2 witness at delimiter "," and the re-chunkings "a,"|"b" and "a"|",b"
of the stream "a,b". -/
theorem boundaryIndependenceWitness :
    concatAll [['a', ','], ['b']] = concatAll [['a'], [',', 'b']] ∧
    runSplit [','] [['a', ','], ['b']] = runSplit [','] [['a'], [',', 'b']] :=
  ⟨by decide,
    boundaryIndependenceAmended ',' [['a', ','], ['b']] [['a'], [',', 'b']]
      (by decide)⟩

/-- C4: when the upstream pull reports done, the pump reports no work done
with the carryover unchanged and nothing enqueued if the carryover is
empty; otherwise it enqueues the carryover as exactly one final token,
resets the carryover to empty, and reports work done, so that the following
upstream-done pump reports no work done. -/
theorem upstreamDoneBranch (separator c : Str) :
    (c = [] → statefulPump separator c none = ⟨[], false, c⟩) ∧
    (c ≠ [] →
      statefulPump separator c none = ⟨[c], true, []⟩ ∧
      statefulPump separator (statefulPump separator c none).carryover none =
        ⟨[], false, []⟩) := by
  constructor
  · intro h
    simp [statefulPump, h]
  · intro h
    constructor
    · simp [statefulPump, h]
    · simp [statefulPump, h]

/-- C4 witness at carryover "x" (non-empty case, plus the following pump)
and carryover "" (empty case). -/
theorem upstreamDoneBranchWitness :
    statefulPump [','] ['x'] none = ⟨[['x']], true, []⟩ ∧
    statefulPump [','] [] none = ⟨[], false, []⟩ :=
  ⟨((upstreamDoneBranch [','] ['x']).2 (by decide)).1,
    (upstreamDoneBranch [','] []).1 rfl⟩

/-- C6: after the transformer has reported done once, every subsequent pull
also reports done (the pull layer is modelled from the spec, since
`StatefulOneToManyIterator.next` is not part of this repository snapshot);
moreover, at the pump level, once the upstream is done and the carryover is
empty, the pump reports no work done, leaves the carryover unchanged and
pushes nothing. -/
theorem idempotentTermination (separator : Str) (q : List Str) (c : Str)
    (up : List Str) (s' : NextState)
    (h : statefulNext separator q c up = (none, s')) :
    statefulNext separator s'.queue s'.carryover s'.upstream = (none, s') ∧
    statefulPump separator initialState none = ⟨[], false, initialState⟩ := by
  have hs := statefulNextDone separator up q c s' h
  subst hs
  constructor
  · simp [statefulNext]
  · simp [statefulPump, initialState]

/-- C6 witness: the empty-upstream transformer reports done, and pulling
again from the resulting state reports done again. -/
theorem idempotentTerminationWitness :
    statefulNext [','] (NextState.mk [] [] []).queue
        (NextState.mk [] [] []).carryover (NextState.mk [] [] []).upstream =
      (none, NextState.mk [] [] []) ∧
    statefulPump [','] initialState none = ⟨[], false, initialState⟩ :=
  idempotentTermination [','] [] [] [] (NextState.mk [] [] []) (by decide)

/-- C7: with upstream fragments ["a", "", "b,c"] and delimiter ",", the
transformer emits exactly the tokens ["ab", "c"]; the empty middle fragment
pushes no token and leaves the carryover untouched. -/
theorem scenarioD :
    runSplit [','] [['a'], [], ['b', ',', 'c']] = [['a', 'b'], ['c']] ∧
    statefulPump [','] ['a'] (some []) = ⟨[], true, ['a']⟩ := by
  decide

/-- C9 (amended to single-character delimiters): a pump that consumes a
fragment f pushes exactly as many tokens as there are occurrences of the
delimiter character in f, and the final upstream-done pump pushes one token
iff the carryover is non-empty. -/
theorem perPumpTokenCountAmended (d : Char) (c f : Str) :
    (statefulPump [d] c (some f)).pushed.length = countOcc [d] f ∧
    (statefulPump [d] c none).pushed.length = (if c = [] then 0 else 1) := by
  constructor
  · exact pushedCountChunk d c f
  · by_cases h : c = [] <;> simp [statefulPump, h]

/-- C9 counterexample: with the two-character delimiter "aa" and fragment
"aaa", the pump pushes one token although "aa" occurs at two positions of
"aaa". -/
theorem perPumpTokenCountCounterexample :
    (statefulPump ['a', 'a'] [] (some ['a', 'a', 'a'])).pushed.length = 1 ∧
    countOcc ['a', 'a'] ['a', 'a', 'a'] = 2 := by
  decide

/-- C10: the transformer is deterministic — any two run traces over the
same upstream fragment sequence with the same delimiter and the same
initial carryover coincide (hence identical token sequences, identical
carryover states after each pump, and identical work-done signals), and the
single pump step relation is functional. -/
theorem deterministicTransformer (separator c : Str) (frags : List Str)
    (tr tr' : List StatefulPumpResult)
    (h1 : RunR separator c frags tr) (h2 : RunR separator c frags tr') :
    tr = tr' ∧
    ∀ k r r', PumpR separator c k r → PumpR separator c k r' → r = r' :=
  ⟨runR_det separator frags c tr tr' h1 h2,
    fun k r r' => pumpR_det separator c k r r'⟩

/-- C10 witness: two runs over the empty upstream with delimiter ",". -/
theorem deterministicTransformerWitness :
    [(⟨[], false, []⟩ : StatefulPumpResult)] = [⟨[], false, []⟩] ∧
    ∀ k r r', PumpR [','] [] k r → PumpR [','] [] k r' → r = r' :=
  deterministicTransformer [','] [] [] _ _
    (RunR.done [] _ PumpR.upstreamDoneEmpty)
    (RunR.done [] _ PumpR.upstreamDoneEmpty)

/-- C8 (amended to single-character delimiters): the carryover starts with
no occurrence of the delimiter character and contains none after every
pump (the final carryover after consuming any fragment sequence is
delimiter-free — instantiating the fragment list at every prefix of a run
gives the state after each pump); consequently no emitted token contains
the delimiter character. -/
theorem carryoverNoDelimiterAmended (d : Char) (frags : List Str) :
    d ∉ initialState ∧
    d ∉ (pumpAll [d] initialState frags).2 ∧
    (∀ t ∈ runSplit [d] frags, d ∉ t) := by
  have hcanon := pumpAll_singleton d frags initialState (by simp [initialState])
  refine ⟨by simp [initialState], ?_, ?_⟩
  · rw [hcanon]
    exact splitNE_singleton_mem d _ _ (lastD_mem [] _ (splitNE_ne_nil _ _))
  · intro t ht
    rw [runSplit_singleton] at ht
    rcases List.mem_append.mp ht with h1 | h2
    · exact splitNE_singleton_mem d _ t (memDropLast _ t h1)
    · by_cases hc : lastD [] (splitNE [d] (concatAll frags)) = []
      · rw [hc] at h2
        simp [statefulPump] at h2
      · simp only [statefulPump, if_neg hc, List.mem_singleton] at h2
        subst h2
        exact splitNE_singleton_mem d _ _ (lastD_mem [] _ (splitNE_ne_nil _ _))

/-- C8 counterexample: with the two-character delimiter "ab" and upstream
fragments "a", "b", the carryover after the second pump is exactly "ab" —
it contains an occurrence of the delimiter (here it equals it). -/
theorem carryoverNoDelimiterCounterexample :
    (pumpAll ['a', 'b'] initialState [['a'], ['b']]).2 = ['a', 'b'] ∧
    (∃ pre post : Str,
      (pumpAll ['a', 'b'] initialState [['a'], ['b']]).2 =
        pre ++ ['a', 'b'] ++ post) ∧
    (['a', 'b'] : Str) ≠ [] := by
  refine ⟨by decide, ⟨[], [], by decide⟩, by decide⟩

/-- C8 witness at delimiter "," and fragments "a,", "b". -/
theorem carryoverNoDelimiterWitness :
    ',' ∉ initialState ∧
    ',' ∉ (pumpAll [','] initialState [['a', ','], ['b']]).2 ∧
    (∀ t ∈ runSplit [','] [['a', ','], ['b']], ',' ∉ t) :=
  carryoverNoDelimiterAmended ',' [['a', ','], ['b']]

/-- C1 (amended): for every delimiter and fragment sequence such that the
delimiter is non-empty or every fragment is non-empty, joining the tokens
pushed while consuming all fragments together with the final carryover,
using the delimiter, reproduces the concatenation of all fragments exactly;
the joined sequence of all emitted tokens (including the final flush)
additionally reproduces the concatenation whenever the final carryover is
non-empty or no token was pushed — the remaining case is a stream ending in
a completed delimiter, whose trailing empty token is not emitted. -/
theorem roundTripAmended (separator : Str) (frags : List Str)
    (h : separator ≠ [] ∨ ∀ f ∈ frags, f ≠ []) :
    joinSep separator
        ((pumpAll separator initialState frags).1 ++
          [(pumpAll separator initialState frags).2]) = concatAll frags ∧
    ((pumpAll separator initialState frags).2 ≠ [] ∨
        (pumpAll separator initialState frags).1 = [] →
      joinSep separator (runSplit separator frags) = concatAll frags) := by
  have hmain := pumpAll_inv separator frags initialState h
  rw [show (initialState ++ concatAll frags : Str) = concatAll frags from
    by simp [initialState]] at hmain
  refine ⟨hmain, ?_⟩
  intro hcond
  simp only [runSplit]
  rcases hcond with hcar | htoks
  · have hp : (statefulPump separator
        (pumpAll separator initialState frags).2 none).pushed =
          [(pumpAll separator initialState frags).2] := by
      simp [statefulPump, hcar]
    rw [hp]
    exact hmain
  · by_cases hcar : (pumpAll separator initialState frags).2 = []
    · have hp : (statefulPump separator
          (pumpAll separator initialState frags).2 none).pushed = [] := by
        simp [statefulPump, hcar]
      rw [htoks, hp]
      rw [htoks, hcar] at hmain
      simp only [List.nil_append, joinSep_single] at hmain
      simp only [List.append_nil]
      rw [show joinSep separator [] = [] from rfl]
      exact hmain
    · have hp : (statefulPump separator
          (pumpAll separator initialState frags).2 none).pushed =
            [(pumpAll separator initialState frags).2] := by
        simp [statefulPump, hcar]
      rw [htoks, hp]
      rw [htoks] at hmain
      exact hmain

/-- C1 counterexample: with delimiter "," and the single fragment "a,", the
emitted tokens are ["a"], whose join is "a", not "a,": the trailing empty
token is lost.  With the empty delimiter and a single empty fragment the
transformer even emits the token "undefined". -/
theorem roundTripCounterexample :
    joinSep [','] (runSplit [','] [['a', ',']]) ≠ concatAll [['a', ',']] ∧
    joinSep [] (runSplit [] [[]]) ≠ concatAll [[]] := by
  decide

/-- C1 witness at delimiter "," and fragments ["a,", "b"]. -/
theorem roundTripWitness :
    (([','] : Str) ≠ [] ∨ ∀ f ∈ [[',', 'a'], ['b']], f ≠ []) ∧
    (joinSep [','] ((pumpAll [','] initialState [[',', 'a'], ['b']]).1 ++
        [(pumpAll [','] initialState [[',', 'a'], ['b']]).2]) =
      concatAll [[',', 'a'], ['b']] ∧
    ((pumpAll [','] initialState [[',', 'a'], ['b']]).2 ≠ [] ∨
        (pumpAll [','] initialState [[',', 'a'], ['b']]).1 = [] →
      joinSep [','] (runSplit [','] [[',', 'a'], ['b']]) =
        concatAll [[',', 'a'], ['b']])) :=
  ⟨Or.inl (by decide),
    roundTripAmended [','] [[',', 'a'], ['b']] (Or.inl (by decide))⟩

/-- C5 (amended): the splitting algorithm is a total function of its string
and delimiter inputs (every definition here is total); with the empty
delimiter, a single-fragment non-empty stream is split into one token per
character; and an empty fragment pushes nothing and leaves the carryover
unchanged for every non-empty delimiter. -/
theorem totalityAmended :
    (∀ f : Str, f ≠ [] → runSplit [] [f] = f.map (fun ch => [ch])) ∧
    (∀ separator c : Str, separator ≠ [] →
      statefulPump separator c (some []) = ⟨[], true, c⟩) := by
  constructor
  · intro f hf
    match f, hf with
    | ch :: rest, _ =>
      have hjs : jsSplit [] (ch :: rest) = [ch] :: rest.map (fun c => [c]) := by
        simp [jsSplit]
      have hchunk := statefulPump_chunk [] initialState (ch :: rest) [ch]
        (rest.map fun c => [c]) hjs
      have hM : ((initialState ++ [ch]) :: rest.map (fun c => [c]))
          = [ch] :: rest.map (fun c => [c]) := by
        simp [initialState]
      rw [hM] at hchunk
      have hmem := lastD_mem [] ([ch] :: rest.map (fun c => [c])) (by simp)
      have hcar : lastD [] ([ch] :: rest.map (fun c => [c])) ≠ [] := by
        rcases List.mem_cons.mp hmem with h1 | h2
        · rw [h1]
          simp
        · obtain ⟨x, _, hxe⟩ := List.mem_map.mp h2
          rw [← hxe]
          simp
      have hdone : (statefulPump []
          (lastD [] ([ch] :: rest.map fun c => [c])) none).pushed
            = [lastD [] ([ch] :: rest.map fun c => [c])] := by
        simp [statefulPump, hcar]
      simp only [runSplit, pumpAll, hchunk]
      rw [hdone, List.append_nil,
        dropLast_lastD [] ([ch] :: rest.map (fun c => [c])) (by simp)]
      simp
  · intro separator c hsep
    have hchunk := statefulPump_chunk separator c [] [] []
      (jsSplitNilFrag separator hsep)
    rw [hchunk]
    simp [lastD]

/-- C5 counterexample: with the empty delimiter and the stream "ab" split
into two fragments, the transformer emits the single token "ab" rather than
one token per character; and with the empty delimiter an empty fragment
changes the carryover (to "undefined"), so empty fragments do not
contribute nothing for every delimiter. -/
theorem totalityCounterexample :
    runSplit [] [['a'], ['b']] = [['a', 'b']] ∧
    [['a', 'b']] ≠ [(['a'] : Str), ['b']] ∧
    (statefulPump [] [] (some [])).carryover ≠ [] := by
  decide

/-- C5 witness: single fragment "ab" with the empty delimiter, and an empty
fragment with delimiter "," and carryover "x". -/
theorem totalityWitness :
    runSplit [] [['a', 'b']] = [['a'], ['b']] ∧
    statefulPump [','] ['x'] (some []) = ⟨[], true, ['x']⟩ :=
  ⟨totalityAmended.1 ['a', 'b'] (by decide),
    totalityAmended.2 [','] ['x'] (by decide)⟩

/-- C3 (amended): whenever the delimiter or the fragment is non-empty, the
pump splits the fragment with JavaScript split semantics, prepends the
carryover to the first part, pushes every part but the last in order, sets
the carryover to the last part and reports work done; for a non-empty
delimiter, an empty fragment yields a single empty part, a fragment equal
to the delimiter yields two empty parts, and a delimiter at the leading
boundary yields a leading empty part; a delimiter at the trailing boundary
yields a trailing empty part for single-character delimiters (not in
general: greedy multi-character splitting can consume an overlapping
earlier occurrence).  When both delimiter and fragment are empty, the
split yields no parts and the pump instead appends the text "undefined" to
the carryover. -/
theorem fragmentPumpAmended (separator c f : Str)
    (h : separator ≠ [] ∨ f ≠ []) :
    (statefulPump separator c (some f)).pushed =
        ((c ++ (jsSplit separator f).headD []) ::
          (jsSplit separator f).tail).dropLast ∧
    (statefulPump separator c (some f)).carryover =
        lastD [] ((c ++ (jsSplit separator f).headD []) ::
          (jsSplit separator f).tail) ∧
    (statefulPump separator c (some f)).pumpDidWork = true ∧
    (separator ≠ [] → jsSplit separator [] = [[]]) ∧
    (separator ≠ [] → jsSplit separator separator = [[], []]) ∧
    (separator ≠ [] → ∀ x : Str,
      (jsSplit separator (separator ++ x)).headD [] = []) ∧
    (∀ e : Char, lastD [] (jsSplit [e] (f ++ [e])) = []) := by
  obtain ⟨l0, ls, hls⟩ : ∃ l0 ls, jsSplit separator f = l0 :: ls := by
    cases hh : jsSplit separator f with
    | nil => exact absurd hh (jsSplit_ne_nil separator f h)
    | cons l0 ls => exact ⟨l0, ls, rfl⟩
  rw [statefulPump_chunk separator c f l0 ls hls, hls]
  refine ⟨rfl, rfl, rfl, ?_, ?_, ?_, ?_⟩
  · exact fun hs => jsSplitNilFrag separator hs
  · intro hs
    rw [jsSplit, if_neg hs]
    exact splitNE_self separator hs
  · intro hs x
    rw [jsSplit, if_neg hs]
    exact splitNE_leading separator x hs
  · intro e
    rw [jsSplit, if_neg (by simp)]
    exact splitNE_singleton_trailing e f

/-- C3 counterexample: with both delimiter and fragment empty, the split
yields no parts and the pump sets the carryover to "undefined" instead of
the empty part claimed; and with delimiter "aa" and fragment "aaa", the
delimiter sits at the trailing boundary yet the last part is "a", not
empty. -/
theorem fragmentPumpCounterexample :
    ((statefulPump [] [] (some [])).carryover = undefinedText ∧
      undefinedText ≠ []) ∧
    (jsSplit ['a', 'a'] ['a', 'a', 'a'] = [[], ['a']] ∧
      (∃ y : Str, y ++ ['a', 'a'] = ['a', 'a', 'a']) ∧
      lastD [] (jsSplit ['a', 'a'] ['a', 'a', 'a']) ≠ []) := by
  refine ⟨⟨by decide, by decide⟩, by decide, ⟨['a'], rfl⟩, by decide⟩

/-- C3 witness at delimiter ",", carryover "x", fragment "a,b". -/
theorem fragmentPumpWitness :
    (statefulPump [','] ['x'] (some ['a', ',', 'b'])).pushed =
        ((['x'] ++ (jsSplit [','] ['a', ',', 'b']).headD []) ::
          (jsSplit [','] ['a', ',', 'b']).tail).dropLast ∧
    (statefulPump [','] ['x'] (some ['a', ',', 'b'])).carryover =
        lastD [] ((['x'] ++ (jsSplit [','] ['a', ',', 'b']).headD []) ::
          (jsSplit [','] ['a', ',', 'b']).tail) ∧
    (statefulPump [','] ['x'] (some ['a', ',', 'b'])).pumpDidWork = true ∧
    (([','] : Str) ≠ [] → jsSplit [','] [] = [[]]) ∧
    (([','] : Str) ≠ [] → jsSplit [','] [','] = [[], []]) ∧
    (([','] : Str) ≠ [] → ∀ x : Str,
      (jsSplit [','] ([','] ++ x)).headD [] = []) ∧
    (∀ e : Char, lastD [] (jsSplit [e] (['a', ',', 'b'] ++ [e])) = []) :=
  fragmentPumpAmended [','] ['x'] ['a', ',', 'b'] (Or.inl (by decide))
